import Mathlib

/-!
Verification of the payload-pulverizer service (src/main.rs) against its
natural-language specification.

The development shallowly embeds the two core subsystems:

* the Format Sniffer, i.e. the body of `validate_before_destroy_handler`
  (size precondition, strict UTF-8 decode, JSON / XML / Markdown checks,
  diagnostic accumulation), and
* the Telemetry Store, i.e. `record_stat` (best-effort insert whose result
  is discarded with a let-underscore binding) and `stats_handler`
  (query-time GROUP BY aggregation with unwrap on prepare/query and a loop
  that keeps only the Ok rows).

Byte buffers are `List Nat` (each element a byte value), decoded text is
`List Char`.  Behaviour of the third-party parsers invoked by the handler
(serde_json, quick_xml, pulldown_cmark) is embedded at the level of their
documented, observable accept/reject behaviour on the handler's inputs.
-/

namespace Pulverizer

/-! ## UTF-8 decoding (std::str::from_utf8)

Strict UTF-8 validation exactly as Rust's `std::str::from_utf8`: rejects
overlong encodings, surrogate code points (0xED A0..BF continuations) and
code points above U+10FFFF (leading bytes above 0xF4). -/

/-- Is `b` a UTF-8 continuation byte (0x80..0xBF)? -/
def isCont (b : Nat) : Bool := 0x80 ≤ b && b ≤ 0xBF

/-- Valid range of the first continuation byte of a 3-byte sequence,
depending on the leading byte (0xE0 excludes overlong, 0xED excludes
surrogates). -/
def cont3ok (b0 b1 : Nat) : Bool :=
  if b0 = 0xE0 then 0xA0 ≤ b1 && b1 ≤ 0xBF
  else if b0 = 0xED then 0x80 ≤ b1 && b1 ≤ 0x9F
  else isCont b1

/-- Valid range of the first continuation byte of a 4-byte sequence,
depending on the leading byte (0xF0 excludes overlong, 0xF4 caps at
U+10FFFF). -/
def cont4ok (b0 b1 : Nat) : Bool :=
  if b0 = 0xF0 then 0x90 ≤ b1 && b1 ≤ 0xBF
  else if b0 = 0xF4 then 0x80 ≤ b1 && b1 ≤ 0x8F
  else isCont b1

/-- Strict UTF-8 decoding of a byte list, `none` on any invalid sequence.
Mirrors `std::str::from_utf8` (which the handler calls on the body). -/
def utf8Decode : List Nat → Option (List Char)
  | [] => some []
  | b0 :: t =>
    if b0 < 0x80 then
      (utf8Decode t).map (fun cs => Char.ofNat b0 :: cs)
    else if b0 < 0xC2 then none
    else if b0 ≤ 0xDF then
      match t with
      | b1 :: t1 =>
        if isCont b1 then
          (utf8Decode t1).map (fun cs =>
            Char.ofNat ((b0 - 0xC0) * 0x40 + (b1 - 0x80)) :: cs)
        else none
      | [] => none
    else if b0 ≤ 0xEF then
      match t with
      | b1 :: b2 :: t2 =>
        if cont3ok b0 b1 && isCont b2 then
          (utf8Decode t2).map (fun cs =>
            Char.ofNat ((b0 - 0xE0) * 0x1000 + (b1 - 0x80) * 0x40 + (b2 - 0x80)) :: cs)
        else none
      | _ => none
    else if b0 ≤ 0xF4 then
      match t with
      | b1 :: b2 :: b3 :: t3 =>
        if cont4ok b0 b1 && isCont b2 && isCont b3 then
          (utf8Decode t3).map (fun cs =>
            Char.ofNat ((b0 - 0xF0) * 0x40000 + (b1 - 0x80) * 0x1000 +
              (b2 - 0x80) * 0x40 + (b3 - 0x80)) :: cs)
        else none
      | _ => none
    else none

/-! ## JSON acceptance (serde_json::from_str::<Value>)

The handler sets `is_json` by attempting `serde_json::from_str` on the
decoded text, i.e. parsing exactly one JSON value (RFC 8259 grammar:
object, array, string, number, boolean or null), with surrounding
whitespace permitted and end-of-input required afterwards.  We embed a
fueled recursive-descent recogniser of that parser, including its two
accept/reject behaviours beyond the grammar: the default recursion
limit of 128 (container nesting deeper than 127 levels is an error) and
the number-out-of-range error for literals whose value overflows the
double range (e.g. `1e999`), decided against the exact round-to-nearest
overflow threshold `2^1024 - 2^970`. -/

/-- The double-quote character. -/
def dquote : Char := Char.ofNat 34

/-- The backslash character. -/
def bslash : Char := Char.ofNat 92

/-- The opening-brace character. -/
def lbrace : Char := Char.ofNat 123

/-- The closing-brace character. -/
def rbrace : Char := Char.ofNat 125

/-- JSON insignificant whitespace (RFC 8259: space, tab, LF, CR). -/
def isJsonWs (c : Char) : Bool := c = ' ' || c = '\t' || c = '\n' || c = '\r'

/-- Drop leading JSON whitespace. -/
def skipWs : List Char → List Char
  | c :: rest => if isJsonWs c then skipWs rest else c :: rest
  | [] => []

/-- Value of one hex digit, `none` if not a hex digit. -/
def hexVal (c : Char) : Option Nat :=
  if 48 ≤ c.toNat && c.toNat ≤ 57 then some (c.toNat - 48)
  else if 97 ≤ c.toNat && c.toNat ≤ 102 then some (c.toNat - 87)
  else if 65 ≤ c.toNat && c.toNat ≤ 70 then some (c.toNat - 55)
  else none

/-- Value of a 4-hex-digit escape, `none` if any digit is invalid. -/
def hex4 (a b c d : Char) : Option Nat := do
  let x0 ← hexVal a
  let x1 ← hexVal b
  let x2 ← hexVal c
  let x3 ← hexVal d
  pure (x0 * 0x1000 + x1 * 0x100 + x2 * 0x10 + x3)

/-- Is `e` one of the eight single-character escapes? -/
def escSimple (e : Char) : Bool :=
  e = dquote || e = bslash || e = '/' || e = 'b' || e = 'f'
    || e = 'n' || e = 'r' || e = 't'

/-- Read four hex digits, returning their value and the remaining input. -/
def readHex4 : List Char → Option (Nat × List Char)
  | h0 :: h1 :: h2 :: h3 :: rest => (hex4 h0 h1 h2 h3).map (fun n => (n, rest))
  | _ => none

/-- Consume the remainder of a `\uXXXX` escape (the input starts at the
first hex digit): a high surrogate must be followed by a `\uXXXX` low
surrogate, a lone low surrogate is an error (as in serde_json). -/
def readUEscape (cs : List Char) : Option (List Char) :=
  match readHex4 cs with
  | none => none
  | some (n, rest3) =>
    if 0xD800 ≤ n && n ≤ 0xDBFF then
      match rest3 with
      | e2 :: u2 :: rest4 =>
        if e2 = bslash && u2 = 'u' then
          match readHex4 rest4 with
          | some (m, rest5) =>
            if 0xDC00 ≤ m && m ≤ 0xDFFF then some rest5 else none
          | none => none
        else none
      | _ => none
    else if 0xDC00 ≤ n && n ≤ 0xDFFF then none
    else some rest3

/-- Scan a JSON string body after its opening quote; returns the input
after the closing quote.  Faithful to serde_json: raw control characters
are errors, escapes are the eight single-character ones plus `\uXXXX`,
and surrogate escapes must form a high/low pair.  Fueled: every step
consumes at least one character, so any fuel above the input length is
exact. -/
def parseStr : Nat → List Char → Option (List Char)
  | 0, _ => none
  | _+1, [] => none
  | fuel+1, c :: rest =>
    if c = dquote then some rest
    else if c = bslash then
      match rest with
      | [] => none
      | e :: rest2 =>
        if escSimple e then parseStr fuel rest2
        else if e = 'u' then
          match readUEscape rest2 with
          | some rest3 => parseStr fuel rest3
          | none => none
        else none
    else if c.toNat < 0x20 then none
    else parseStr fuel rest

/-- Read a run of decimal digits, accumulating their value and count;
returns value, digit count and the remaining input. -/
def readDigits : List Char → Nat → Nat → Nat × Nat × List Char
  | c :: rest, v, k =>
    if c.isDigit then readDigits rest (v * 10 + (c.toNat - 48)) (k + 1)
    else (v, k, c :: rest)
  | [], v, k => (v, k, [])

/-- Require at least one digit, then read the digit run's value. -/
def readDigits1 : List Char → Option (Nat × Nat × List Char)
  | c :: rest =>
    if c.isDigit then some (readDigits rest (c.toNat - 48) 1) else none
  | [] => none

/-- JSON integer part: `0`, or a nonzero digit followed by digits
(leading zeros rejected); returns its value and digit count. -/
def parseIntPart : List Char → Option (Nat × Nat × List Char)
  | c :: rest =>
    if c = '0' then some (0, 1, rest)
    else if c.isDigit then some (readDigits rest (c.toNat - 48) 1)
    else none
  | [] => none

/-- Optional JSON fraction part: `.` followed by at least one digit;
returns the fraction digits' value and count (0, 0 when absent). -/
def parseFrac : List Char → Option (Nat × Nat × List Char)
  | [] => some (0, 0, [])
  | c :: rest => if c = '.' then readDigits1 rest else some (0, 0, c :: rest)

/-- Optional JSON exponent part: `e`/`E`, optional sign, at least one
digit; returns the signed exponent value (0 when absent). -/
def parseExp : List Char → Option (Int × List Char)
  | c :: rest =>
    if c = 'e' || c = 'E' then
      match rest with
      | s :: rest2 =>
        if s = '+' then (readDigits1 rest2).map (fun p => ((p.1 : Int), p.2.2))
        else if s = '-' then
          (readDigits1 rest2).map (fun p => (-(p.1 : Int), p.2.2))
        else (readDigits1 (s :: rest2)).map (fun p => ((p.1 : Int), p.2.2))
      | [] => none
    else some (0, c :: rest)
  | [] => some (0, [])

/-- The smallest magnitude that rounds to infinity in IEEE binary64
round-to-nearest (half-way above the largest finite double). -/
def OVERFLOW_T : Nat := 2 ^ 1024 - 2 ^ 970

/-- Decimal digit count of `m`, fueled (any fuel at least the digit
count is exact). -/
def digitCountAux : Nat → Nat → Nat
  | 0, _ => 0
  | fuel+1, m => if m = 0 then 0 else digitCountAux fuel (m / 10) + 1

/-- Does the decimal literal with significand `m` and decimal exponent
`e` (value `m · 10^e`) overflow to infinity as a double?  serde_json
rejects such a number with its number-out-of-range error.  Decided
against the exact round-to-nearest overflow threshold `OVERFLOW_T`;
the far-from-threshold zones are settled by digit count alone so that
huge exponents never require computing a huge power. -/
def numOverflows (dFuel : Nat) (m : Nat) (e : Int) : Bool :=
  if m = 0 then false
  else
    let d : Int := (digitCountAux dFuel m : Int)
    if d + e ≥ 310 then true
    else if d + e ≤ 308 then false
    else if e ≥ 0 then m * 10 ^ e.toNat ≥ OVERFLOW_T
    else OVERFLOW_T * 10 ^ (-e).toNat ≤ m

/-- JSON number: optional minus, integer part, optional fraction and
exponent.  As serde_json does, a literal whose value overflows the
double range is rejected (the sign is irrelevant to overflow). -/
def parseNumber (cs : List Char) : Option (List Char) :=
  let cs0 := match cs with
    | c :: r => if c = '-' then r else c :: r
    | [] => []
  match parseIntPart cs0 with
  | none => none
  | some (iv, ik, cs1) =>
    match parseFrac cs1 with
    | none => none
    | some (fv, fk, cs2) =>
      match parseExp cs2 with
      | none => none
      | some (e, cs3) =>
        if numOverflows (ik + fk + 1) (iv * 10 ^ fk + fv) (e - (fk : Int))
        then none else some cs3

/-- Strip an expected literal character sequence. -/
def stripLit : List Char → List Char → Option (List Char)
  | [], cs => some cs
  | l :: ls, c :: cs => if c = l then stripLit ls cs else none
  | _ :: _, [] => none

mutual

/-- Recognise one JSON value (leading whitespace allowed), returning the
remaining input.  Fueled to bound the mutual recursion. -/
def parseValue : Nat → Nat → List Char → Option (List Char)
  | 0, _, _ => none
  | fuel+1, depth, cs =>
    match skipWs cs with
    | [] => none
    | c :: rest =>
      if c = lbrace then
        if depth ≤ 1 then none else parseObjBody fuel (depth - 1) rest
      else if c = '[' then
        if depth ≤ 1 then none else parseArrBody fuel (depth - 1) rest
      else if c = dquote then parseStr (rest.length + 1) rest
      else if c = 't' then stripLit ['r', 'u', 'e'] rest
      else if c = 'f' then stripLit ['a', 'l', 's', 'e'] rest
      else if c = 'n' then stripLit ['u', 'l', 'l'] rest
      else if c = '-' || c.isDigit then parseNumber (c :: rest)
      else none
termination_by structural fuel _ _ => fuel

/-- Object body after the opening brace: empty object or first member. -/
def parseObjBody : Nat → Nat → List Char → Option (List Char)
  | 0, _, _ => none
  | fuel+1, depth, cs =>
    match skipWs cs with
    | [] => none
    | c :: rest =>
      if c = rbrace then some rest
      else if c = dquote then
        match parseStr (rest.length + 1) rest with
        | none => none
        | some r1 =>
          match skipWs r1 with
          | [] => none
          | c2 :: r2 =>
            if c2 = ':' then
              match parseValue fuel depth r2 with
              | none => none
              | some r3 => parseObjRest fuel depth r3
            else none
      else none
termination_by structural fuel _ _ => fuel

/-- Object continuation after a member: closing brace or comma-member. -/
def parseObjRest : Nat → Nat → List Char → Option (List Char)
  | 0, _, _ => none
  | fuel+1, depth, cs =>
    match skipWs cs with
    | [] => none
    | c :: rest =>
      if c = rbrace then some rest
      else if c = ',' then
        match skipWs rest with
        | [] => none
        | c2 :: rest2 =>
          if c2 = dquote then
            match parseStr (rest2.length + 1) rest2 with
            | none => none
            | some r1 =>
              match skipWs r1 with
              | [] => none
              | c3 :: r2 =>
                if c3 = ':' then
                  match parseValue fuel depth r2 with
                  | none => none
                  | some r3 => parseObjRest fuel depth r3
                else none
          else none
      else none
termination_by structural fuel _ _ => fuel

/-- Array body after the opening bracket: empty array or first element. -/
def parseArrBody : Nat → Nat → List Char → Option (List Char)
  | 0, _, _ => none
  | fuel+1, depth, cs =>
    match skipWs cs with
    | [] => none
    | c :: rest =>
      if c = ']' then some rest
      else
        match parseValue fuel depth (c :: rest) with
        | none => none
        | some r1 => parseArrRest fuel depth r1
termination_by structural fuel _ _ => fuel

/-- Array continuation after an element: closing bracket or comma-element. -/
def parseArrRest : Nat → Nat → List Char → Option (List Char)
  | 0, _, _ => none
  | fuel+1, depth, cs =>
    match skipWs cs with
    | [] => none
    | c :: rest =>
      if c = ']' then some rest
      else if c = ',' then
        match parseValue fuel depth rest with
        | none => none
        | some r1 => parseArrRest fuel depth r1
      else none
termination_by structural fuel _ _ => fuel

end

/-- serde_json's recursion limit: its deserializer starts with a
remaining depth of 128 and errors when entering a container would
exhaust it, so container nesting deeper than 127 levels is rejected. -/
def SERDE_DEPTH : Nat := 128

/-- The handler's JSON check, `serde_json::from_str::<Value>(s).is_ok()`:
the text is one JSON value consuming the whole input (trailing JSON
whitespace permitted, as serde_json's `end` does), parsed with
serde_json's recursion limit and number-overflow rejection.  The fuel
`4 * length + 8` dominates the recogniser's recursion depth on any
input (theorem `parse_adequate` below makes this exact). -/
def jsonWhole (text : List Char) : Bool :=
  match parseValue (4 * text.length + 8) SERDE_DEPTH text with
  | some rest => (skipWs rest).isEmpty
  | none => false

/-- Grammar-level acceptance, free of both artefacts: for some fuel and
some depth budget the recogniser consumes the whole text as one JSON
value (plus surrounding whitespace).  Since the depth budget only ever
restricts, this is the natural-language "the text is exactly one
well-formed JSON value consuming the whole input". -/
def ExactlyOneJsonValue (text : List Char) : Prop :=
  ∃ fuel depth rest,
    parseValue fuel depth text = some rest ∧ skipWs rest = []

/-- Acceptance by serde_json's actual parser (depth budget fixed at its
recursion limit), with the fuel artefact quantified away. -/
def SerdeAcceptsJsonValue (text : List Char) : Prop :=
  ∃ fuel rest,
    parseValue fuel SERDE_DEPTH text = some rest ∧ skipWs rest = []


/-! ## XML well-formedness scan (quick_xml Reader loop)

The handler loops `read_event_into` on a `quick_xml::Reader` until either
`Ok(Eof)` (sets `is_xml = true`) or any `Err` (leaves it false).  The
reader is a lenient pull tokenizer: bare text (even with no tag at all)
is just a Text event, so reaching end-of-input is the only success
condition.  With the default `check_end_names`, a close tag must match
the innermost open tag.  `trim_text(true)` only suppresses
whitespace-only Text events and cannot cause an error, so it is not
modelled. -/

/-- The single-quote character. -/
def sQuote : Char := Char.ofNat 39

/-- XML whitespace. -/
def isXmlWs (c : Char) : Bool := c = ' ' || c = '\t' || c = '\n' || c = '\r'

/-- Scan the inside of a tag up to the closing angle bracket, honouring
single- and double-quoted attribute values (a bracket inside quotes does
not close the tag); `none` when end-of-input is reached inside the tag.
Returns the tag contents and the input after the bracket; the first
argument is the pending quote character, if any. -/
def readInsideTag : Option Char → List Char → Option (List Char × List Char)
  | _, [] => none
  | some qc, c :: rest =>
    (readInsideTag (if c = qc then none else some qc) rest).map
      (fun p => (c :: p.1, p.2))
  | none, c :: rest =>
    if c = '>' then some ([], rest)
    else if c = dquote || c = sQuote then
      (readInsideTag (some c) rest).map (fun p => (c :: p.1, p.2))
    else
      (readInsideTag none rest).map (fun p => (c :: p.1, p.2))

/-- The name of a tag: its contents up to the first whitespace. -/
def xmlTagName (inner : List Char) : List Char :=
  inner.takeWhile (fun c => !isXmlWs c)

/-- Drop input through the first occurrence of `pat`; `none` if `pat`
never occurs. -/
def findClose (pat : List Char) : List Char → Option (List Char)
  | [] => none
  | c :: rest =>
    match stripLit pat (c :: rest) with
    | some r => some r
    | none => findClose pat rest

/-- One pass of the quick_xml event loop: `stack` holds the open start
tags (innermost first).  Success (`true`) is reaching end-of-input with
no malformed token; mismatched or stray close tags, end-of-input inside
a tag, an unterminated comment or CDATA section, and unclosed open tags
at end-of-input are errors.  Fueled; one unit of fuel per event, each of
which consumes at least one character. -/
def xmlScan : Nat → List (List Char) → List Char → Bool
  | _, stack, [] => stack.isEmpty
  | 0, _, _ => false
  | fuel+1, stack, c :: rest =>
    if c = '<' then
      match rest with
      | [] => false
      | c2 :: rest2 =>
        if c2 = '/' then
          match readInsideTag none rest2 with
          | none => false
          | some (inner, rest3) =>
            match stack with
            | [] => false
            | top :: stack2 =>
              if xmlTagName inner = top then xmlScan fuel stack2 rest3 else false
        else if c2 = '!' then
          match stripLit ['-', '-'] rest2 with
          | some r =>
            match findClose ['-', '-', '>'] r with
            | some rest3 => xmlScan fuel stack rest3
            | none => false
          | none =>
            match stripLit ['[', 'C', 'D', 'A', 'T', 'A', '['] rest2 with
            | some r =>
              match findClose [']', ']', '>'] r with
              | some rest3 => xmlScan fuel stack rest3
              | none => false
            | none =>
              match readInsideTag none rest2 with
              | some p => xmlScan fuel stack p.2
              | none => false
        else if c2 = '?' then
          match readInsideTag none rest2 with
          | some p => xmlScan fuel stack p.2
          | none => false
        else
          match readInsideTag none (c2 :: rest2) with
          | none => false
          | some (inner, rest3) =>
            if inner.getLast? = some '/' then xmlScan fuel stack rest3
            else xmlScan fuel (xmlTagName inner :: stack) rest3
    else xmlScan fuel stack rest

/-- The XML check the handler performs on the decoded text: run the event
loop from an empty tag stack; `true` exactly when it reaches a clean
end-of-input. -/
def xmlWellFormed (text : List Char) : Bool :=
  xmlScan (text.length + 1) [] text

/-! ## Markdown check (pulldown_cmark)

Modelled from pulldown_cmark's observable behaviour: the handler only
asks whether `Parser::new(text).next()` yields at least one event.  The
block parser emits no event exactly when every line is blank (only
spaces and tabs, with LF/CR line endings); any other character starts a
block and yields an event. -/

/-- Does the Markdown pull parser yield at least one event for this text?
True iff the text contains a character other than space, tab, LF, CR. -/
def mdHasEvent (text : List Char) : Bool :=
  text.any (fun c => !(c = ' ' || c = '\t' || c = '\n' || c = '\r'))

/-! ## The classification handler (validate_before_destroy_handler)

The handler's response-relevant behaviour as a function of the body
bytes plus one ambient parameter: the elapsed-time sample used for the
`runtime_us` field (the only environment-dependent datum in the
response). -/

/-- The JSON body of a normal classification response. -/
structure ValidationReport where
  is_json : Bool
  is_xml : Bool
  is_markdown : Bool
  details : List String
  runtime_us : Nat
deriving DecidableEq

/-- Outcome of a classification request: the early 413 rejection, or a
200 response carrying a report. -/
inductive SniffOutcome where
  | payloadTooLarge
  | report (r : ValidationReport)
deriving DecidableEq

/-- The fixed size threshold of the classification endpoint (64 KB). -/
def MAX_SIZE : Nat := 64 * 1024

/-- The body of `validate_before_destroy_handler`: size precondition,
strict UTF-8 decode (early return on failure, with a single diagnostic
and no closing remark), then the JSON, XML and Markdown checks, each
appending its diagnostic, the no-known-markup diagnostic when all three
fail, and the closing remark. -/
def validate_before_destroy_handler (runtime_us : Nat) (body : List Nat) :
    SniffOutcome :=
  if body.length > MAX_SIZE then .payloadTooLarge
  else
    match utf8Decode body with
    | none =>
      .report ⟨false, false, false, ["Payload is not valid UTF-8 text."],
        runtime_us⟩
    | some text =>
      let is_json := jsonWhole text
      let d1 : List String := if is_json then ["Valid JSON detected."] else []
      let is_xml := xmlWellFormed text
      let d2 : List String := if is_xml then ["Valid XML detected."] else []
      let is_markdown := mdHasEvent text
      let d3 : List String :=
        if is_markdown then ["Markdown content detected (parsed successfully)."]
        else []
      let d4 : List String :=
        if !is_json && !is_xml && !is_markdown then
          ["No known markup detected (JSON, XML, Markdown)."]
        else []
      .report ⟨is_json, is_xml, is_markdown,
        d1 ++ d2 ++ d3 ++ d4 ++ ["Anyways, it's gone now."], runtime_us⟩

/-! ## Telemetry Store (record_stat and stats_handler)

The backing store is the SQLite table `endpoint_stats_raw`; its visible
state is the list of inserted rows, in insertion order.  Store failures
(rusqlite errors) are injected as explicit `Except` parameters at the
points where the code receives a `Result` from rusqlite. -/

/-- A row of the `endpoint_stats_raw` table (the surrogate key and the
timestamp carry no information the claims mention). -/
structure RawEvent where
  endpoint : String
  payload_size : Int
  runtime_us : Int
deriving DecidableEq

/-- An opaque backing-store error (a rusqlite error value). -/
structure DbError where
  code : Nat
deriving DecidableEq

/-- One aggregate row of the `/stats` response. -/
structure StatsEntry where
  endpoint : String
  count : Int
  total_bytes : Int
  total_runtime_us : Int
  avg_payload_size : Rat
  avg_runtime_us : Rat
deriving DecidableEq

/-- The `/stats` response body. -/
structure StatsResponse where
  stats : List StatsEntry
deriving DecidableEq

/-- The body of `record_stat`: take the lock, run the single INSERT, and discard its
result with a let-underscore binding.  Inputs: the current log, the row
data, and the outcome rusqlite returns for the INSERT.  Outputs: the new
log state, what the caller sees (always a normal return), and the
messages emitted on the logging channel (none: the discarded result is
not logged anywhere). -/
def record_stat (log : List RawEvent) (endpoint : String)
    (payload_size : Nat) (runtime_us : Nat)
    (insert_result : Except DbError Nat) :
    List RawEvent × Except DbError Unit × List String :=
  match insert_result with
  | .ok _ =>
    (log ++ [⟨endpoint, (payload_size : Int), (runtime_us : Int)⟩],
      .ok (), [])
  | .error _ => (log, .ok (), [])

/-- The grouped aggregate computed by the handler's SQL:
`SELECT endpoint, COUNT, SUM(payload_size), SUM(runtime_us),
AVG(payload_size), AVG(runtime_us) ... GROUP BY endpoint` — one row per
distinct endpoint value present in the table, with exact averages
(AVG = SUM / COUNT, represented as rationals). -/
def queryStats (log : List RawEvent) : List StatsEntry :=
  ((log.map (fun ev => ev.endpoint)).dedup).map (fun e =>
    let evs := log.filter (fun ev => ev.endpoint = e)
    let cnt : Int := (evs.length : Int)
    let tb : Int := (evs.map (fun ev => ev.payload_size)).sum
    let tr : Int := (evs.map (fun ev => ev.runtime_us)).sum
    { endpoint := e
      count := cnt
      total_bytes := tb
      total_runtime_us := tr
      avg_payload_size := (tb : Rat) / (cnt : Rat)
      avg_runtime_us := (tr : Rat) / (cnt : Rat) })

/-- How a `/stats` request can conclude: a normal 200 response, an
explicit error response, or a panic (an `unwrap` firing), which actix
turns into an aborted connection, not an HTTP error response. -/
inductive HandlerResult where
  | ok (resp : StatsResponse)
  | serviceError
  | crashed
deriving DecidableEq

/-- The body of `stats_handler`: `prepare(...).unwrap()` and `query_map(...).unwrap()`
(modelled by the outer `Except`: any failure there panics), then a loop
that pushes only the `Ok` rows and silently drops `Err` rows (the inner
`Except`s).  The success path never inspects row errors and the handler
has no path that returns an explicit error response. -/
def stats_handler (queried : Except DbError (List (Except DbError StatsEntry))) :
    HandlerResult :=
  match queried with
  | .error _ => .crashed
  | .ok rows =>
    .ok ⟨rows.filterMap (fun r =>
      match r with
      | .ok entry => some entry
      | .error _ => none)⟩

/-! ## Concrete fixtures for the theorems below -/

/-- The seven bytes of the `«lbrace»"a":1«rbrace»` JSON-object payload of the
spec's first concrete scenario. -/
def jsonObjBytes : List Nat := [123, 34, 97, 34, 58, 49, 125]

/-- The environment-independent part of a classification outcome: the
three flags and the details, i.e. everything except the elapsed-time
sample. -/
def reportCore : SniffOutcome → Option (Bool × Bool × Bool × List String)
  | .payloadTooLarge => none
  | .report r => some (r.is_json, r.is_xml, r.is_markdown, r.details)

/-- The event log of the spec's fifth concrete scenario: three
`record("alpha", 100, 50)` calls. -/
def demoLog : List RawEvent :=
  [⟨"alpha", 100, 50⟩, ⟨"alpha", 100, 50⟩, ⟨"alpha", 100, 50⟩]

/-- The aggregate row expected for `demoLog`. -/
def demoRow : StatsEntry := ⟨"alpha", 3, 300, 150, 100, 50⟩

/-- Bytes of 128 opening brackets then 128 closing brackets (256
bytes): one well-formed JSON value nested one level past serde_json's
recursion limit. -/
def deepBytes : List Nat := List.replicate 128 91 ++ List.replicate 128 93

/-- The decoded text of `deepBytes`: 128 nested arrays. -/
def deepText : List Char := List.replicate 128 '[' ++ List.replicate 128 ']'

/-! ### Fuel monotonicity, consumption bounds and fuel adequacy

These three lemma families show that the fuel in `jsonWhole` is an
artefact: success with any fuel implies success with the fixed fuel.
The depth budget is genuine (it is serde_json's recursion limit) and is
carried through unchanged. -/

/-- One-step fuel monotonicity for the five mutual recognisers. -/
theorem parse_mono (fuel : Nat) :
    (∀ depth cs r, parseValue fuel depth cs = some r →
      parseValue (fuel+1) depth cs = some r) ∧
    (∀ depth cs r, parseObjBody fuel depth cs = some r →
      parseObjBody (fuel+1) depth cs = some r) ∧
    (∀ depth cs r, parseObjRest fuel depth cs = some r →
      parseObjRest (fuel+1) depth cs = some r) ∧
    (∀ depth cs r, parseArrBody fuel depth cs = some r →
      parseArrBody (fuel+1) depth cs = some r) ∧
    (∀ depth cs r, parseArrRest fuel depth cs = some r →
      parseArrRest (fuel+1) depth cs = some r) := by
  induction fuel with
  | zero =>
    refine ⟨?_, ?_, ?_, ?_, ?_⟩ <;> intro depth cs r h <;>
      simp [parseValue, parseObjBody, parseObjRest, parseArrBody,
        parseArrRest] at h
  | succ f ih =>
    obtain ⟨ihV, ihOB, ihOR, ihAB, ihAR⟩ := ih
    refine ⟨?_, ?_, ?_, ?_, ?_⟩
    · intro depth cs r h
      rw [parseValue] at h ⊢
      cases hsw : skipWs cs with
      | nil => rw [hsw] at h; exact absurd h (by simp)
      | cons c rest =>
        rw [hsw] at h
        dsimp only at h ⊢
        by_cases h1 : c = lbrace
        · rw [if_pos h1] at h ⊢
          by_cases hd : depth ≤ 1
          · rw [if_pos hd] at h; exact absurd h (by simp)
          · rw [if_neg hd] at h ⊢; exact ihOB (depth - 1) rest r h
        · rw [if_neg h1] at h ⊢
          by_cases h2 : c = '['
          · rw [if_pos h2] at h ⊢
            by_cases hd : depth ≤ 1
            · rw [if_pos hd] at h; exact absurd h (by simp)
            · rw [if_neg hd] at h ⊢; exact ihAB (depth - 1) rest r h
          · rw [if_neg h2] at h ⊢; exact h
    · intro depth cs r h
      rw [parseObjBody] at h ⊢
      cases hsw : skipWs cs with
      | nil => rw [hsw] at h; exact absurd h (by simp)
      | cons c rest =>
        rw [hsw] at h
        dsimp only at h ⊢
        by_cases h1 : c = rbrace
        · rw [if_pos h1] at h ⊢; exact h
        · rw [if_neg h1] at h ⊢
          by_cases h2 : c = dquote
          · rw [if_pos h2] at h ⊢
            cases hps : parseStr (rest.length + 1) rest with
            | none => rw [hps] at h; exact absurd h (by simp)
            | some r1 =>
              rw [hps] at h
              dsimp only at h ⊢
              cases hsw2 : skipWs r1 with
              | nil => rw [hsw2] at h; exact absurd h (by simp)
              | cons c2 r2 =>
                rw [hsw2] at h
                dsimp only at h ⊢
                by_cases hc2 : c2 = ':'
                · rw [if_pos hc2] at h ⊢
                  cases hv : parseValue f depth r2 with
                  | none => rw [hv] at h; exact absurd h (by simp)
                  | some r3 =>
                    rw [hv] at h
                    rw [ihV depth r2 r3 hv]
                    dsimp only at h ⊢
                    exact ihOR depth r3 r h
                · rw [if_neg hc2] at h; exact absurd h (by simp)
          · rw [if_neg h2] at h; exact absurd h (by simp)
    · intro depth cs r h
      rw [parseObjRest] at h ⊢
      cases hsw : skipWs cs with
      | nil => rw [hsw] at h; exact absurd h (by simp)
      | cons c rest =>
        rw [hsw] at h
        dsimp only at h ⊢
        by_cases h1 : c = rbrace
        · rw [if_pos h1] at h ⊢; exact h
        · rw [if_neg h1] at h ⊢
          by_cases h2 : c = ','
          · rw [if_pos h2] at h ⊢
            cases hsw2 : skipWs rest with
            | nil => rw [hsw2] at h; exact absurd h (by simp)
            | cons c2 rest2 =>
              rw [hsw2] at h
              dsimp only at h ⊢
              by_cases hc2 : c2 = dquote
              · rw [if_pos hc2] at h ⊢
                cases hps : parseStr (rest2.length + 1) rest2 with
                | none => rw [hps] at h; exact absurd h (by simp)
                | some r1 =>
                  rw [hps] at h
                  dsimp only at h ⊢
                  cases hsw3 : skipWs r1 with
                  | nil => rw [hsw3] at h; exact absurd h (by simp)
                  | cons c3 r2 =>
                    rw [hsw3] at h
                    dsimp only at h ⊢
                    by_cases hc3 : c3 = ':'
                    · rw [if_pos hc3] at h ⊢
                      cases hv : parseValue f depth r2 with
                      | none => rw [hv] at h; exact absurd h (by simp)
                      | some r3 =>
                        rw [hv] at h
                        rw [ihV depth r2 r3 hv]
                        dsimp only at h ⊢
                        exact ihOR depth r3 r h
                    · rw [if_neg hc3] at h; exact absurd h (by simp)
              · rw [if_neg hc2] at h; exact absurd h (by simp)
          · rw [if_neg h2] at h; exact absurd h (by simp)
    · intro depth cs r h
      rw [parseArrBody] at h ⊢
      cases hsw : skipWs cs with
      | nil => rw [hsw] at h; exact absurd h (by simp)
      | cons c rest =>
        rw [hsw] at h
        dsimp only at h ⊢
        by_cases h1 : c = ']'
        · rw [if_pos h1] at h ⊢; exact h
        · rw [if_neg h1] at h ⊢
          cases hv : parseValue f depth (c :: rest) with
          | none => rw [hv] at h; exact absurd h (by simp)
          | some r1 =>
            rw [hv] at h
            rw [ihV depth _ _ hv]
            dsimp only at h ⊢
            exact ihAR depth r1 r h
    · intro depth cs r h
      rw [parseArrRest] at h ⊢
      cases hsw : skipWs cs with
      | nil => rw [hsw] at h; exact absurd h (by simp)
      | cons c rest =>
        rw [hsw] at h
        dsimp only at h ⊢
        by_cases h1 : c = ']'
        · rw [if_pos h1] at h ⊢; exact h
        · rw [if_neg h1] at h ⊢
          by_cases h2 : c = ','
          · rw [if_pos h2] at h ⊢
            cases hv : parseValue f depth rest with
            | none => rw [hv] at h; exact absurd h (by simp)
            | some r1 =>
              rw [hv] at h
              rw [ihV depth _ _ hv]
              dsimp only at h ⊢
              exact ihAR depth r1 r h
          · rw [if_neg h2] at h; exact absurd h (by simp)

/-- Fuel monotonicity for `parseValue`, arbitrary increments. -/
theorem parseValue_mono_le {fuel fuel' : Nat} (hle : fuel ≤ fuel')
    {depth : Nat} {cs r : List Char} (h : parseValue fuel depth cs = some r) :
    parseValue fuel' depth cs = some r := by
  induction fuel', hle using Nat.le_induction with
  | base => exact h
  | succ n hn ih => exact (parse_mono n).1 depth cs r ih

/-- Fuel monotonicity for `parseObjBody`, arbitrary increments. -/
theorem parseObjBody_mono_le {fuel fuel' : Nat} (hle : fuel ≤ fuel')
    {depth : Nat} {cs r : List Char} (h : parseObjBody fuel depth cs = some r) :
    parseObjBody fuel' depth cs = some r := by
  induction fuel', hle using Nat.le_induction with
  | base => exact h
  | succ n hn ih => exact (parse_mono n).2.1 depth cs r ih

/-- Fuel monotonicity for `parseObjRest`, arbitrary increments. -/
theorem parseObjRest_mono_le {fuel fuel' : Nat} (hle : fuel ≤ fuel')
    {depth : Nat} {cs r : List Char} (h : parseObjRest fuel depth cs = some r) :
    parseObjRest fuel' depth cs = some r := by
  induction fuel', hle using Nat.le_induction with
  | base => exact h
  | succ n hn ih => exact (parse_mono n).2.2.1 depth cs r ih

/-- Fuel monotonicity for `parseArrBody`, arbitrary increments. -/
theorem parseArrBody_mono_le {fuel fuel' : Nat} (hle : fuel ≤ fuel')
    {depth : Nat} {cs r : List Char} (h : parseArrBody fuel depth cs = some r) :
    parseArrBody fuel' depth cs = some r := by
  induction fuel', hle using Nat.le_induction with
  | base => exact h
  | succ n hn ih => exact (parse_mono n).2.2.2.1 depth cs r ih

/-- Fuel monotonicity for `parseArrRest`, arbitrary increments. -/
theorem parseArrRest_mono_le {fuel fuel' : Nat} (hle : fuel ≤ fuel')
    {depth : Nat} {cs r : List Char} (h : parseArrRest fuel depth cs = some r) :
    parseArrRest fuel' depth cs = some r := by
  induction fuel', hle using Nat.le_induction with
  | base => exact h
  | succ n hn ih => exact (parse_mono n).2.2.2.2 depth cs r ih

/-- Whitespace skipping only drops characters. -/
theorem skipWs_length (cs : List Char) : (skipWs cs).length ≤ cs.length := by
  induction cs with
  | nil => simp [skipWs]
  | cons c rest ih =>
    rw [skipWs]
    by_cases h : isJsonWs c = true
    · rw [if_pos h]; exact le_trans ih (by simp)
    · rw [if_neg h]

/-- Reading four hex digits consumes exactly four characters. -/
theorem readHex4_length {cs rest : List Char} {n : Nat}
    (h : readHex4 cs = some (n, rest)) : rest.length + 4 = cs.length := by
  rcases cs with _ | ⟨h0, _ | ⟨h1, _ | ⟨h2, _ | ⟨h3, rest'⟩⟩⟩⟩
  · simp [readHex4] at h
  · simp [readHex4] at h
  · simp [readHex4] at h
  · simp [readHex4] at h
  · unfold readHex4 at h
    simp only [Option.map_eq_some'] at h
    obtain ⟨m, hm, heq⟩ := h
    injection heq with hn hr
    subst hr
    simp

/-- A unicode escape body consumes at least one character. -/
theorem readUEscape_length {cs r : List Char}
    (h : readUEscape cs = some r) : r.length < cs.length := by
  unfold readUEscape at h
  cases hh : readHex4 cs with
  | none => rw [hh] at h; exact absurd h (by simp)
  | some p =>
    obtain ⟨n, rest3⟩ := p
    rw [hh] at h
    have h4 := readHex4_length hh
    dsimp only at h
    by_cases hs : (0xD800 ≤ n && n ≤ 0xDBFF) = true
    · rw [if_pos hs] at h
      rcases rest3 with _ | ⟨e2, _ | ⟨u2, rest4⟩⟩
      · exact absurd h (by simp)
      · exact absurd h (by simp)
      · dsimp only at h
        by_cases hbu : (e2 = bslash && u2 = 'u') = true
        · rw [if_pos hbu] at h
          cases hh2 : readHex4 rest4 with
          | none => rw [hh2] at h; exact absurd h (by simp)
          | some q =>
            obtain ⟨m, rest5⟩ := q
            rw [hh2] at h
            have h42 := readHex4_length hh2
            dsimp only at h
            by_cases hlo : (0xDC00 ≤ m && m ≤ 0xDFFF) = true
            · rw [if_pos hlo] at h
              injection h with h
              subst h
              simp only [List.length_cons] at h4 ⊢
              omega
            · rw [if_neg hlo] at h; exact absurd h (by simp)
        · rw [if_neg hbu] at h; exact absurd h (by simp)
    · rw [if_neg hs] at h
      by_cases hlo : (0xDC00 ≤ n && n ≤ 0xDFFF) = true
      · rw [if_pos hlo] at h; exact absurd h (by simp)
      · rw [if_neg hlo] at h
        injection h with h
        subst h
        omega

/-- A successful string scan consumes at least the closing quote. -/
theorem parseStr_length : ∀ (fuel : Nat) (cs r : List Char),
    parseStr fuel cs = some r → r.length < cs.length := by
  intro fuel
  induction fuel with
  | zero => intro cs r h; simp [parseStr] at h
  | succ f ih =>
    intro cs r h
    cases cs with
    | nil => simp [parseStr] at h
    | cons c rest =>
      simp only [parseStr] at h
      by_cases h1 : c = dquote
      · rw [if_pos h1] at h
        injection h with h
        subst h
        simp
      · rw [if_neg h1] at h
        by_cases h2 : c = bslash
        · rw [if_pos h2] at h
          rcases rest with _ | ⟨e, rest2⟩
          · exact absurd h (by simp)
          · dsimp only at h
            by_cases h3 : escSimple e = true
            · rw [if_pos h3] at h
              have := ih rest2 r h
              simp only [List.length_cons]
              omega
            · rw [if_neg h3] at h
              by_cases h4 : e = 'u'
              · rw [if_pos h4] at h
                cases hu : readUEscape rest2 with
                | none => rw [hu] at h; exact absurd h (by simp)
                | some rest3 =>
                  rw [hu] at h
                  have hul := readUEscape_length hu
                  have := ih rest3 r h
                  simp only [List.length_cons]
                  omega
              · rw [if_neg h4] at h; exact absurd h (by simp)
        · rw [if_neg h2] at h
          by_cases h5 : c.toNat < 0x20
          · rw [if_pos h5] at h; exact absurd h (by simp)
          · rw [if_neg h5] at h
            have := ih rest r h
            simp only [List.length_cons]
            omega

/-- Reading a digit run only drops characters. -/
theorem readDigits_length : ∀ (cs : List Char) (v k : Nat),
    (readDigits cs v k).2.2.length ≤ cs.length := by
  intro cs
  induction cs with
  | nil => intro v k; simp [readDigits]
  | cons c rest ih =>
    intro v k
    rw [readDigits]
    by_cases h : c.isDigit = true
    · rw [if_pos h]
      exact le_trans (ih _ _) (by simp)
    · rw [if_neg h]

/-- A required digit run consumes at least one character. -/
theorem readDigits1_length {cs : List Char} {p : Nat × Nat × List Char}
    (h : readDigits1 cs = some p) : p.2.2.length < cs.length := by
  cases cs with
  | nil => simp [readDigits1] at h
  | cons c rest =>
    simp only [readDigits1] at h
    by_cases hd : c.isDigit = true
    · rw [if_pos hd] at h
      injection h with h
      subst h
      have := readDigits_length rest (c.toNat - 48) 1
      simp only [List.length_cons]
      omega
    · rw [if_neg hd] at h; exact absurd h (by simp)

/-- An integer part consumes at least one character. -/
theorem parseIntPart_length {cs : List Char} {p : Nat × Nat × List Char}
    (h : parseIntPart cs = some p) : p.2.2.length < cs.length := by
  cases cs with
  | nil => simp [parseIntPart] at h
  | cons c rest =>
    simp only [parseIntPart] at h
    by_cases h0 : c = '0'
    · rw [if_pos h0] at h
      injection h with h
      subst h
      simp
    · rw [if_neg h0] at h
      by_cases hd : c.isDigit = true
      · rw [if_pos hd] at h
        injection h with h
        subst h
        have := readDigits_length rest (c.toNat - 48) 1
        simp only [List.length_cons]
        omega
      · rw [if_neg hd] at h; exact absurd h (by simp)

/-- The optional fraction part only consumes characters. -/
theorem parseFrac_length {cs : List Char} {p : Nat × Nat × List Char}
    (h : parseFrac cs = some p) : p.2.2.length ≤ cs.length := by
  cases cs with
  | nil =>
    simp only [parseFrac] at h
    injection h with h
    subst h
    simp
  | cons c rest =>
    simp only [parseFrac] at h
    by_cases hp : c = '.'
    · rw [if_pos hp] at h
      have := readDigits1_length h
      simp only [List.length_cons]
      omega
    · rw [if_neg hp] at h
      injection h with h
      subst h
      simp

/-- The optional exponent part only consumes characters. -/
theorem parseExp_length {cs : List Char} {p : Int × List Char}
    (h : parseExp cs = some p) : p.2.length ≤ cs.length := by
  cases cs with
  | nil =>
    simp only [parseExp] at h
    injection h with h
    subst h
    simp
  | cons c rest =>
    simp only [parseExp] at h
    by_cases he : (c = 'e' || c = 'E') = true
    · rw [if_pos he] at h
      cases rest with
      | nil => exact absurd h (by simp)
      | cons s rest2 =>
        dsimp only at h
        by_cases hplus : s = '+'
        · rw [if_pos hplus] at h
          simp only [Option.map_eq_some'] at h
          obtain ⟨q, hq, hpq⟩ := h
          subst hpq
          have := readDigits1_length hq
          simp only [List.length_cons]
          omega
        · rw [if_neg hplus] at h
          by_cases hminus : s = '-'
          · rw [if_pos hminus] at h
            simp only [Option.map_eq_some'] at h
            obtain ⟨q, hq, hpq⟩ := h
            subst hpq
            have := readDigits1_length hq
            simp only [List.length_cons]
            omega
          · rw [if_neg hminus] at h
            simp only [Option.map_eq_some'] at h
            obtain ⟨q, hq, hpq⟩ := h
            subst hpq
            have := readDigits1_length hq
            simp only [List.length_cons] at this ⊢
            omega
    · rw [if_neg he] at h
      injection h with h
      subst h
      simp

/-- A number consumes at least one character. -/
theorem parseNumber_length {cs r : List Char}
    (h : parseNumber cs = some r) : r.length < cs.length := by
  cases cs with
  | nil => simp [parseNumber, parseIntPart] at h
  | cons c rest =>
    unfold parseNumber at h
    dsimp only at h
    by_cases hm : c = '-'
    · rw [if_pos hm] at h
      cases hI : parseIntPart rest with
      | none => rw [hI] at h; exact absurd h (by simp)
      | some p1 =>
        obtain ⟨iv, ik, cs1⟩ := p1
        rw [hI] at h
        dsimp only at h
        cases hF : parseFrac cs1 with
        | none => rw [hF] at h; exact absurd h (by simp)
        | some p2 =>
          obtain ⟨fv, fk, cs2⟩ := p2
          rw [hF] at h
          dsimp only at h
          cases hE : parseExp cs2 with
          | none => rw [hE] at h; exact absurd h (by simp)
          | some p3 =>
            obtain ⟨e, cs3⟩ := p3
            rw [hE] at h
            dsimp only at h
            by_cases hov : numOverflows (ik + fk + 1) (iv * 10 ^ fk + fv)
                (e - (fk : Int)) = true
            · rw [if_pos hov] at h; exact absurd h (by simp)
            · rw [if_neg hov] at h
              injection h with h
              subst h
              have l1 := parseIntPart_length hI
              have l2 := parseFrac_length hF
              have l3 := parseExp_length hE
              dsimp only at l1 l2 l3
              simp only [List.length_cons]
              omega
    · rw [if_neg hm] at h
      cases hI : parseIntPart (c :: rest) with
      | none => rw [hI] at h; exact absurd h (by simp)
      | some p1 =>
        obtain ⟨iv, ik, cs1⟩ := p1
        rw [hI] at h
        dsimp only at h
        cases hF : parseFrac cs1 with
        | none => rw [hF] at h; exact absurd h (by simp)
        | some p2 =>
          obtain ⟨fv, fk, cs2⟩ := p2
          rw [hF] at h
          dsimp only at h
          cases hE : parseExp cs2 with
          | none => rw [hE] at h; exact absurd h (by simp)
          | some p3 =>
            obtain ⟨e, cs3⟩ := p3
            rw [hE] at h
            dsimp only at h
            by_cases hov : numOverflows (ik + fk + 1) (iv * 10 ^ fk + fv)
                (e - (fk : Int)) = true
            · rw [if_pos hov] at h; exact absurd h (by simp)
            · rw [if_neg hov] at h
              injection h with h
              subst h
              have l1 := parseIntPart_length hI
              have l2 := parseFrac_length hF
              have l3 := parseExp_length hE
              dsimp only at l1 l2 l3
              omega

/-- Literal stripping only consumes characters. -/
theorem stripLit_length : ∀ (lit cs r : List Char),
    stripLit lit cs = some r → r.length ≤ cs.length := by
  intro lit
  induction lit with
  | nil =>
    intro cs r h
    simp only [stripLit] at h
    injection h with h
    subst h
    exact le_refl _
  | cons l ls ih =>
    intro cs r h
    cases cs with
    | nil => simp [stripLit] at h
    | cons c rest =>
      simp only [stripLit] at h
      by_cases hc : c = l
      · rw [if_pos hc] at h
        have := ih rest r h
        simp only [List.length_cons]
        omega
      · rw [if_neg hc] at h; exact absurd h (by simp)

/-- A successful parse by any of the five mutual recognisers consumes at
least one character, whatever the depth budget. -/
theorem parse_consume (fuel : Nat) :
    (∀ depth cs r, parseValue fuel depth cs = some r → r.length < cs.length) ∧
    (∀ depth cs r, parseObjBody fuel depth cs = some r → r.length < cs.length) ∧
    (∀ depth cs r, parseObjRest fuel depth cs = some r → r.length < cs.length) ∧
    (∀ depth cs r, parseArrBody fuel depth cs = some r → r.length < cs.length) ∧
    (∀ depth cs r, parseArrRest fuel depth cs = some r → r.length < cs.length) := by
  induction fuel with
  | zero =>
    refine ⟨?_, ?_, ?_, ?_, ?_⟩ <;> intro depth cs r h <;>
      simp [parseValue, parseObjBody, parseObjRest, parseArrBody,
        parseArrRest] at h
  | succ f ih =>
    obtain ⟨ihV, ihOB, ihOR, ihAB, ihAR⟩ := ih
    refine ⟨?_, ?_, ?_, ?_, ?_⟩
    · intro depth cs r h
      rw [parseValue] at h
      have hskip := skipWs_length cs
      cases hsw : skipWs cs with
      | nil => rw [hsw] at h; exact absurd h (by simp)
      | cons c rest =>
        rw [hsw] at h
        rw [hsw] at hskip
        simp only [List.length_cons] at hskip
        dsimp only at h
        by_cases h1 : c = lbrace
        · rw [if_pos h1] at h
          by_cases hd : depth ≤ 1
          · rw [if_pos hd] at h; exact absurd h (by simp)
          · rw [if_neg hd] at h
            have := ihOB (depth - 1) rest r h
            omega
        · rw [if_neg h1] at h
          by_cases h2 : c = '['
          · rw [if_pos h2] at h
            by_cases hd : depth ≤ 1
            · rw [if_pos hd] at h; exact absurd h (by simp)
            · rw [if_neg hd] at h
              have := ihAB (depth - 1) rest r h
              omega
          · rw [if_neg h2] at h
            by_cases h3 : c = dquote
            · rw [if_pos h3] at h
              have := parseStr_length _ _ _ h
              omega
            · rw [if_neg h3] at h
              by_cases h4 : c = 't'
              · rw [if_pos h4] at h
                have := stripLit_length _ _ _ h
                omega
              · rw [if_neg h4] at h
                by_cases h5 : c = 'f'
                · rw [if_pos h5] at h
                  have := stripLit_length _ _ _ h
                  omega
                · rw [if_neg h5] at h
                  by_cases h6 : c = 'n'
                  · rw [if_pos h6] at h
                    have := stripLit_length _ _ _ h
                    omega
                  · rw [if_neg h6] at h
                    by_cases h7 : (c = '-' || c.isDigit) = true
                    · rw [if_pos h7] at h
                      have := parseNumber_length h
                      simp only [List.length_cons] at this
                      omega
                    · rw [if_neg h7] at h; exact absurd h (by simp)
    · intro depth cs r h
      rw [parseObjBody] at h
      have hskip := skipWs_length cs
      cases hsw : skipWs cs with
      | nil => rw [hsw] at h; exact absurd h (by simp)
      | cons c rest =>
        rw [hsw] at h
        rw [hsw] at hskip
        simp only [List.length_cons] at hskip
        dsimp only at h
        by_cases h1 : c = rbrace
        · rw [if_pos h1] at h
          injection h with h
          subst h
          omega
        · rw [if_neg h1] at h
          by_cases h2 : c = dquote
          · rw [if_pos h2] at h
            cases hps : parseStr (rest.length + 1) rest with
            | none => rw [hps] at h; exact absurd h (by simp)
            | some r1 =>
              rw [hps] at h
              have hl1 := parseStr_length _ _ _ hps
              have hskip2 := skipWs_length r1
              dsimp only at h
              cases hsw2 : skipWs r1 with
              | nil => rw [hsw2] at h; exact absurd h (by simp)
              | cons c2 r2 =>
                rw [hsw2] at h
                rw [hsw2] at hskip2
                simp only [List.length_cons] at hskip2
                dsimp only at h
                by_cases hc2 : c2 = ':'
                · rw [if_pos hc2] at h
                  cases hv : parseValue f depth r2 with
                  | none => rw [hv] at h; exact absurd h (by simp)
                  | some r3 =>
                    rw [hv] at h
                    have hl2 := ihV depth r2 r3 hv
                    dsimp only at h
                    have hl3 := ihOR depth r3 r h
                    omega
                · rw [if_neg hc2] at h; exact absurd h (by simp)
          · rw [if_neg h2] at h; exact absurd h (by simp)
    · intro depth cs r h
      rw [parseObjRest] at h
      have hskip := skipWs_length cs
      cases hsw : skipWs cs with
      | nil => rw [hsw] at h; exact absurd h (by simp)
      | cons c rest =>
        rw [hsw] at h
        rw [hsw] at hskip
        simp only [List.length_cons] at hskip
        dsimp only at h
        by_cases h1 : c = rbrace
        · rw [if_pos h1] at h
          injection h with h
          subst h
          omega
        · rw [if_neg h1] at h
          by_cases h2 : c = ','
          · rw [if_pos h2] at h
            have hskip2 := skipWs_length rest
            cases hsw2 : skipWs rest with
            | nil => rw [hsw2] at h; exact absurd h (by simp)
            | cons c2 rest2 =>
              rw [hsw2] at h
              rw [hsw2] at hskip2
              simp only [List.length_cons] at hskip2
              dsimp only at h
              by_cases hc2 : c2 = dquote
              · rw [if_pos hc2] at h
                cases hps : parseStr (rest2.length + 1) rest2 with
                | none => rw [hps] at h; exact absurd h (by simp)
                | some r1 =>
                  rw [hps] at h
                  have hl1 := parseStr_length _ _ _ hps
                  have hskip3 := skipWs_length r1
                  dsimp only at h
                  cases hsw3 : skipWs r1 with
                  | nil => rw [hsw3] at h; exact absurd h (by simp)
                  | cons c3 r2 =>
                    rw [hsw3] at h
                    rw [hsw3] at hskip3
                    simp only [List.length_cons] at hskip3
                    dsimp only at h
                    by_cases hc3 : c3 = ':'
                    · rw [if_pos hc3] at h
                      cases hv : parseValue f depth r2 with
                      | none => rw [hv] at h; exact absurd h (by simp)
                      | some r3 =>
                        rw [hv] at h
                        have hl2 := ihV depth r2 r3 hv
                        dsimp only at h
                        have hl3 := ihOR depth r3 r h
                        omega
                    · rw [if_neg hc3] at h; exact absurd h (by simp)
              · rw [if_neg hc2] at h; exact absurd h (by simp)
          · rw [if_neg h2] at h; exact absurd h (by simp)
    · intro depth cs r h
      rw [parseArrBody] at h
      have hskip := skipWs_length cs
      cases hsw : skipWs cs with
      | nil => rw [hsw] at h; exact absurd h (by simp)
      | cons c rest =>
        rw [hsw] at h
        rw [hsw] at hskip
        simp only [List.length_cons] at hskip
        dsimp only at h
        by_cases h1 : c = ']'
        · rw [if_pos h1] at h
          injection h with h
          subst h
          omega
        · rw [if_neg h1] at h
          cases hv : parseValue f depth (c :: rest) with
          | none => rw [hv] at h; exact absurd h (by simp)
          | some r1 =>
            rw [hv] at h
            have hl1 := ihV depth _ _ hv
            simp only [List.length_cons] at hl1
            dsimp only at h
            have hl2 := ihAR depth r1 r h
            omega
    · intro depth cs r h
      rw [parseArrRest] at h
      have hskip := skipWs_length cs
      cases hsw : skipWs cs with
      | nil => rw [hsw] at h; exact absurd h (by simp)
      | cons c rest =>
        rw [hsw] at h
        rw [hsw] at hskip
        simp only [List.length_cons] at hskip
        dsimp only at h
        by_cases h1 : c = ']'
        · rw [if_pos h1] at h
          injection h with h
          subst h
          omega
        · rw [if_neg h1] at h
          by_cases h2 : c = ','
          · rw [if_pos h2] at h
            cases hv : parseValue f depth rest with
            | none => rw [hv] at h; exact absurd h (by simp)
            | some r1 =>
              rw [hv] at h
              have hl1 := ihV depth _ _ hv
              dsimp only at h
              have hl2 := ihAR depth r1 r h
              omega
          · rw [if_neg h2] at h; exact absurd h (by simp)

/-- Fuel adequacy: success with any fuel implies success with the
length-derived fuel bound (2·length+1 for values, 2·length+2 for the
body/continuation recognisers), whatever the depth budget. -/
theorem parse_adequate (fuel : Nat) :
    (∀ depth cs r, parseValue fuel depth cs = some r →
      parseValue (2 * cs.length + 1) depth cs = some r) ∧
    (∀ depth cs r, parseObjBody fuel depth cs = some r →
      parseObjBody (2 * cs.length + 2) depth cs = some r) ∧
    (∀ depth cs r, parseObjRest fuel depth cs = some r →
      parseObjRest (2 * cs.length + 2) depth cs = some r) ∧
    (∀ depth cs r, parseArrBody fuel depth cs = some r →
      parseArrBody (2 * cs.length + 2) depth cs = some r) ∧
    (∀ depth cs r, parseArrRest fuel depth cs = some r →
      parseArrRest (2 * cs.length + 2) depth cs = some r) := by
  induction fuel with
  | zero =>
    refine ⟨?_, ?_, ?_, ?_, ?_⟩ <;> intro depth cs r h <;>
      simp [parseValue, parseObjBody, parseObjRest, parseArrBody,
        parseArrRest] at h
  | succ f ih =>
    obtain ⟨ihV, ihOB, ihOR, ihAB, ihAR⟩ := ih
    refine ⟨?_, ?_, ?_, ?_, ?_⟩
    · intro depth cs r h
      rw [parseValue] at h ⊢
      have hskip := skipWs_length cs
      cases hsw : skipWs cs with
      | nil => rw [hsw] at h; exact absurd h (by simp)
      | cons c rest =>
        rw [hsw] at h
        rw [hsw] at hskip
        simp only [List.length_cons] at hskip
        dsimp only at h ⊢
        by_cases h1 : c = lbrace
        · rw [if_pos h1] at h ⊢
          by_cases hd : depth ≤ 1
          · rw [if_pos hd] at h; exact absurd h (by simp)
          · rw [if_neg hd] at h ⊢
            exact parseObjBody_mono_le (by omega) (ihOB (depth - 1) rest r h)
        · rw [if_neg h1] at h ⊢
          by_cases h2 : c = '['
          · rw [if_pos h2] at h ⊢
            by_cases hd : depth ≤ 1
            · rw [if_pos hd] at h; exact absurd h (by simp)
            · rw [if_neg hd] at h ⊢
              exact parseArrBody_mono_le (by omega) (ihAB (depth - 1) rest r h)
          · rw [if_neg h2] at h ⊢; exact h
    · intro depth cs r h
      rw [parseObjBody] at h ⊢
      have hskip := skipWs_length cs
      cases hsw : skipWs cs with
      | nil => rw [hsw] at h; exact absurd h (by simp)
      | cons c rest =>
        rw [hsw] at h
        rw [hsw] at hskip
        simp only [List.length_cons] at hskip
        dsimp only at h ⊢
        by_cases h1 : c = rbrace
        · rw [if_pos h1] at h ⊢; exact h
        · rw [if_neg h1] at h ⊢
          by_cases h2 : c = dquote
          · rw [if_pos h2] at h ⊢
            cases hps : parseStr (rest.length + 1) rest with
            | none => rw [hps] at h; exact absurd h (by simp)
            | some r1 =>
              rw [hps] at h
              have hl1 := parseStr_length _ _ _ hps
              have hskip2 := skipWs_length r1
              dsimp only at h ⊢
              cases hsw2 : skipWs r1 with
              | nil => rw [hsw2] at h; exact absurd h (by simp)
              | cons c2 r2 =>
                rw [hsw2] at h
                rw [hsw2] at hskip2
                simp only [List.length_cons] at hskip2
                dsimp only at h ⊢
                by_cases hc2 : c2 = ':'
                · rw [if_pos hc2] at h ⊢
                  cases hv : parseValue f depth r2 with
                  | none => rw [hv] at h; exact absurd h (by simp)
                  | some r3 =>
                    rw [hv] at h
                    have hl2 := (parse_consume f).1 depth r2 r3 hv
                    rw [parseValue_mono_le (show 2 * r2.length + 1 ≤
                      2 * cs.length + 1 by omega) (ihV depth r2 r3 hv)]
                    dsimp only at h ⊢
                    exact parseObjRest_mono_le (by omega) (ihOR depth r3 r h)
                · rw [if_neg hc2] at h; exact absurd h (by simp)
          · rw [if_neg h2] at h; exact absurd h (by simp)
    · intro depth cs r h
      rw [parseObjRest] at h ⊢
      have hskip := skipWs_length cs
      cases hsw : skipWs cs with
      | nil => rw [hsw] at h; exact absurd h (by simp)
      | cons c rest =>
        rw [hsw] at h
        rw [hsw] at hskip
        simp only [List.length_cons] at hskip
        dsimp only at h ⊢
        by_cases h1 : c = rbrace
        · rw [if_pos h1] at h ⊢; exact h
        · rw [if_neg h1] at h ⊢
          by_cases h2 : c = ','
          · rw [if_pos h2] at h ⊢
            have hskip2 := skipWs_length rest
            cases hsw2 : skipWs rest with
            | nil => rw [hsw2] at h; exact absurd h (by simp)
            | cons c2 rest2 =>
              rw [hsw2] at h
              rw [hsw2] at hskip2
              simp only [List.length_cons] at hskip2
              dsimp only at h ⊢
              by_cases hc2 : c2 = dquote
              · rw [if_pos hc2] at h ⊢
                cases hps : parseStr (rest2.length + 1) rest2 with
                | none => rw [hps] at h; exact absurd h (by simp)
                | some r1 =>
                  rw [hps] at h
                  have hl1 := parseStr_length _ _ _ hps
                  have hskip3 := skipWs_length r1
                  dsimp only at h ⊢
                  cases hsw3 : skipWs r1 with
                  | nil => rw [hsw3] at h; exact absurd h (by simp)
                  | cons c3 r2 =>
                    rw [hsw3] at h
                    rw [hsw3] at hskip3
                    simp only [List.length_cons] at hskip3
                    dsimp only at h ⊢
                    by_cases hc3 : c3 = ':'
                    · rw [if_pos hc3] at h ⊢
                      cases hv : parseValue f depth r2 with
                      | none => rw [hv] at h; exact absurd h (by simp)
                      | some r3 =>
                        rw [hv] at h
                        have hl2 := (parse_consume f).1 depth r2 r3 hv
                        rw [parseValue_mono_le (show 2 * r2.length + 1 ≤
                          2 * cs.length + 1 by omega) (ihV depth r2 r3 hv)]
                        dsimp only at h ⊢
                        exact parseObjRest_mono_le (by omega) (ihOR depth r3 r h)
                    · rw [if_neg hc3] at h; exact absurd h (by simp)
              · rw [if_neg hc2] at h; exact absurd h (by simp)
          · rw [if_neg h2] at h; exact absurd h (by simp)
    · intro depth cs r h
      rw [parseArrBody] at h ⊢
      have hskip := skipWs_length cs
      cases hsw : skipWs cs with
      | nil => rw [hsw] at h; exact absurd h (by simp)
      | cons c rest =>
        rw [hsw] at h
        rw [hsw] at hskip
        simp only [List.length_cons] at hskip
        dsimp only at h ⊢
        by_cases h1 : c = ']'
        · rw [if_pos h1] at h ⊢; exact h
        · rw [if_neg h1] at h ⊢
          cases hv : parseValue f depth (c :: rest) with
          | none => rw [hv] at h; exact absurd h (by simp)
          | some r1 =>
            rw [hv] at h
            have hl1 := (parse_consume f).1 depth _ _ hv
            simp only [List.length_cons] at hl1
            rw [parseValue_mono_le (show 2 * (c :: rest).length + 1 ≤
              2 * cs.length + 1 by simp only [List.length_cons]; omega)
              (ihV depth _ _ hv)]
            dsimp only at h ⊢
            exact parseArrRest_mono_le (by omega) (ihAR depth r1 r h)
    · intro depth cs r h
      rw [parseArrRest] at h ⊢
      have hskip := skipWs_length cs
      cases hsw : skipWs cs with
      | nil => rw [hsw] at h; exact absurd h (by simp)
      | cons c rest =>
        rw [hsw] at h
        rw [hsw] at hskip
        simp only [List.length_cons] at hskip
        dsimp only at h ⊢
        by_cases h1 : c = ']'
        · rw [if_pos h1] at h ⊢; exact h
        · rw [if_neg h1] at h ⊢
          by_cases h2 : c = ','
          · rw [if_pos h2] at h ⊢
            cases hv : parseValue f depth rest with
            | none => rw [hv] at h; exact absurd h (by simp)
            | some r1 =>
              rw [hv] at h
              have hl1 := (parse_consume f).1 depth _ _ hv
              rw [parseValue_mono_le (show 2 * rest.length + 1 ≤
                2 * cs.length + 1 by omega) (ihV depth _ _ hv)]
              dsimp only at h ⊢
              exact parseArrRest_mono_le (by omega) (ihAR depth r1 r h)
          · rw [if_neg h2] at h; exact absurd h (by simp)

/-- The handler's executable JSON check and the fuel-independent
serde-acceptance predicate agree. -/
theorem jsonWhole_iff_serde_accepts (text : List Char) :
    jsonWhole text = true ↔ SerdeAcceptsJsonValue text := by
  constructor
  · intro h
    unfold jsonWhole at h
    cases hp : parseValue (4 * text.length + 8) SERDE_DEPTH text with
    | none => rw [hp] at h; simp at h
    | some rest =>
      rw [hp] at h
      dsimp only at h
      refine ⟨4 * text.length + 8, rest, hp, ?_⟩
      simpa using h
  · rintro ⟨fuel, rest, hp, hws⟩
    have h1 := (parse_adequate fuel).1 SERDE_DEPTH text rest hp
    have h2 := parseValue_mono_le
      (show 2 * text.length + 1 ≤ 4 * text.length + 8 by omega) h1
    unfold jsonWhole
    rw [h2]
    simp [hws]

/-! ## Helper lemmas -/

/-- The last element of a list with a fixed final element. -/
theorem getLast?_append_singleton {α : Type} (l : List α) (c : α) :
    (l ++ [c]).getLast? = some c := by
  rw [List.getLast?_append_cons]
  rfl


/-! ## C2: the JSON flag

The claim asserts `is_json` iff grammar-level acceptance as one JSON
value.  The program's check, `serde_json::from_str`, additionally
rejects container nesting deeper than 127 levels (its recursion limit
of 128) and number literals overflowing the double range — both
reachable under the 64 KB cap — so the claimed iff fails on, e.g.,
128 nested arrays; it holds against serde_json's actual acceptance. -/

set_option maxRecDepth 8192 in
set_option maxHeartbeats 1000000 in
/-- C2 counterexample: 128 nested arrays (256 bytes, valid UTF-8, well
under the size limit) are exactly one well-formed JSON value consuming
the whole input, yet the handler reports `is_json = false`, so the
claimed iff fails at this input. -/
theorem C2_counterexample :
    ExactlyOneJsonValue deepText ∧
    ∃ rep, validate_before_destroy_handler 0 deepBytes = .report rep ∧
      rep.is_json = false :=
  ⟨⟨1032, 256, [], by decide, rfl⟩, _, rfl, rfl⟩

/-- C2 amended: for every payload of at most 65536 bytes that decodes as
UTF-8, the report's `is_json` is true exactly when serde_json's parser
accepts the decoded text as one JSON value consuming the whole input —
well-formed, no trailing non-whitespace, container nesting at most 127
levels deep, and no number literal overflowing the double range. -/
theorem C2_is_json_iff_serde_accepts (runtime : Nat) (body : List Nat)
    (text : List Char) (hlen : body.length ≤ 65536)
    (hdec : utf8Decode body = some text) :
    ∃ rep, validate_before_destroy_handler runtime body = .report rep ∧
      (rep.is_json = true ↔ SerdeAcceptsJsonValue text) := by
  have hle : ¬ body.length > MAX_SIZE := by
    simp [MAX_SIZE]
    omega
  unfold validate_before_destroy_handler
  simp only [hle, if_false, hdec]
  exact ⟨_, rfl, jsonWhole_iff_serde_accepts text⟩

/-- Witness for the amended C2 at the bytes of the text `[1, 2]`. -/
theorem C2_is_json_iff_serde_accepts_witness :
    ([91, 49, 44, 32, 50, 93] : List Nat).length ≤ 65536 ∧
    utf8Decode [91, 49, 44, 32, 50, 93] =
      some ['[', '1', ',', ' ', '2', ']'] ∧
    ∃ rep, validate_before_destroy_handler 2 [91, 49, 44, 32, 50, 93] =
        .report rep ∧
      (rep.is_json = true ↔
        SerdeAcceptsJsonValue ['[', '1', ',', ' ', '2', ']']) :=
  ⟨by decide, by decide,
    C2_is_json_iff_serde_accepts 2 [91, 49, 44, 32, 50, 93]
      ['[', '1', ',', ' ', '2', ']'] (by decide) (by decide)⟩

/-! ## C3: oversize payloads -/

/-- C3: for every payload strictly longer than 65536 bytes the handler
returns the fixed 413 `payloadTooLarge` outcome, regardless of content,
and produces no classification report. -/
theorem C3_oversize_rejected (runtime : Nat) (body : List Nat)
    (h : body.length > 65536) :
    validate_before_destroy_handler runtime body = .payloadTooLarge ∧
    ∀ rep, validate_before_destroy_handler runtime body ≠ .report rep := by
  have hgt : body.length > MAX_SIZE := by
    simpa [MAX_SIZE] using h
  have heq : validate_before_destroy_handler runtime body = .payloadTooLarge := by
    unfold validate_before_destroy_handler
    simp [hgt]
  exact ⟨heq, fun rep hr => by simp [heq] at hr⟩

/-- Witness for C3 at a concrete 65537-byte payload. -/
theorem C3_oversize_rejected_witness :
    (List.replicate 65537 (0 : Nat)).length > 65536 ∧
    validate_before_destroy_handler 0 (List.replicate 65537 (0 : Nat)) =
      .payloadTooLarge :=
  ⟨by rw [List.length_replicate]; omega,
    (C3_oversize_rejected 0 _ (by rw [List.length_replicate]; omega)).1⟩

/-! ## C4: invalid UTF-8 -/

/-- C4: for every payload of at most 65536 bytes that is not valid UTF-8,
the handler still returns a report (not an error outcome), with all three
flags false and a single invalid-encoding diagnostic; no JSON, XML or
Markdown diagnostic appears. -/
theorem C4_invalid_utf8_all_false (runtime : Nat) (body : List Nat)
    (hlen : body.length ≤ 65536) (hdec : utf8Decode body = none) :
    validate_before_destroy_handler runtime body =
      .report ⟨false, false, false, ["Payload is not valid UTF-8 text."],
        runtime⟩ := by
  have hle : ¬ body.length > MAX_SIZE := by
    simp [MAX_SIZE]
    omega
  unfold validate_before_destroy_handler
  simp [hle, hdec]

/-- Witness for C4 at the spec's concrete bytes 0xFF 0xFE. -/
theorem C4_invalid_utf8_all_false_witness :
    ([255, 254] : List Nat).length ≤ 65536 ∧
    utf8Decode [255, 254] = none ∧
    validate_before_destroy_handler 3 [255, 254] =
      .report ⟨false, false, false, ["Payload is not valid UTF-8 text."], 3⟩ :=
  ⟨by decide, by decide, C4_invalid_utf8_all_false 3 [255, 254] (by decide) (by decide)⟩

/-! ## C5: closing diagnostic

The claim says every report — including the invalid-encoding one — ends
with the closing remark.  The invalid-encoding early return builds its
details list as the single invalid-encoding message and never reaches
the closing `details.push`, so the claim fails there; for every report
on decodable input the closing remark is last. -/

/-- C5 counterexample: the not-valid-UTF-8 input 0xFF 0xFE (2 bytes, well
under the limit) produces a report whose details end with the
invalid-encoding message, not with the closing remark. -/
theorem C5_counterexample :
    validate_before_destroy_handler 3 [255, 254] =
      .report ⟨false, false, false, ["Payload is not valid UTF-8 text."], 3⟩ ∧
    (["Payload is not valid UTF-8 text."] : List String).getLast? ≠
      some "Anyways, it's gone now." :=
  ⟨by rfl, by decide⟩

/-- C5 amended: for every payload of at most 65536 bytes that decodes as
UTF-8, the report's details end with the fixed closing remark,
independent of the outcome of the checks. -/
theorem C5_closing_remark_on_decodable (runtime : Nat) (body : List Nat)
    (text : List Char)
    (hlen : body.length ≤ 65536) (hdec : utf8Decode body = some text) :
    ∃ rep, validate_before_destroy_handler runtime body = .report rep ∧
      rep.details.getLast? = some "Anyways, it's gone now." := by
  have hle : ¬ body.length > MAX_SIZE := by
    simp [MAX_SIZE]
    omega
  unfold validate_before_destroy_handler
  simp only [hle, if_false, hdec]
  refine ⟨_, rfl, ?_⟩
  simp only [← List.append_assoc]
  exact getLast?_append_singleton _ _

/-- Witness for the amended C5 at the empty payload. -/
theorem C5_closing_remark_on_decodable_witness :
    ([] : List Nat).length ≤ 65536 ∧
    utf8Decode [] = some [] ∧
    ∃ rep, validate_before_destroy_handler 0 [] = .report rep ∧
      rep.details.getLast? = some "Anyways, it's gone now." :=
  ⟨by decide, by decide, C5_closing_remark_on_decodable 0 [] [] (by decide) (by decide)⟩

/-! ## C6: the JSON-object scenario

The claim (spec scenario 1) expects `is_json = true, is_xml = false` for
the JSON-object payload.  The quick_xml event loop, however, treats the
whole payload as one Text event and reaches a clean end-of-input, so the
code sets `is_xml = true` as well. -/

/-- C6 counterexample: on the JSON-object payload the handler's report has
`is_xml = true`, so no report with `is_json = true ∧ is_xml = false` is
produced. -/
theorem C6_counterexample :
    ¬ ∃ rep, validate_before_destroy_handler 3 jsonObjBytes = .report rep ∧
        rep.is_json = true ∧ rep.is_xml = false := by
  rintro ⟨rep, heq, -, hx⟩
  have hval : validate_before_destroy_handler 3 jsonObjBytes =
      .report ⟨true, true, true,
        ["Valid JSON detected.", "Valid XML detected.",
         "Markdown content detected (parsed successfully).",
         "Anyways, it's gone now."], 3⟩ := by rfl
  rw [hval] at heq
  injection heq with h
  rw [← h] at hx
  simp at hx

/-- C6 amended: the JSON-object payload classifies with `is_json = true`
and `is_xml = true`. -/
theorem C6_json_object_flags :
    ∃ rep, validate_before_destroy_handler 3 jsonObjBytes = .report rep ∧
      rep.is_json = true ∧ rep.is_xml = true :=
  ⟨_, rfl, rfl, rfl⟩

/-! ## C9: determinism -/

/-- C9: classification is deterministic — for identical input bytes, two
calls (with arbitrary, possibly different, elapsed-time environments)
agree on the outcome kind, the three flags and the details sequence. -/
theorem C9_deterministic (r1 r2 : Nat) (body : List Nat) :
    reportCore (validate_before_destroy_handler r1 body) =
      reportCore (validate_before_destroy_handler r2 body) := by
  by_cases h : body.length > MAX_SIZE
  · simp [validate_before_destroy_handler, h]
  · simp only [validate_before_destroy_handler, if_neg h]
    cases hdec : utf8Decode body <;> rfl

/-! ## C10: the XML check's only success condition is clean end-of-input -/

/-- A tag-free text is scanned as a single Text event and reaches
end-of-input, so the scan succeeds whatever the fuel bound. -/
theorem xmlScan_text_only (text : List Char) :
    ∀ fuel, text.length ≤ fuel → (∀ c ∈ text, c ≠ '<') →
      xmlScan fuel [] text = true := by
  induction text with
  | nil =>
    intro fuel _ _
    cases fuel <;> rfl
  | cons c rest ih =>
    intro fuel hlen hmem
    cases fuel with
    | zero => simp at hlen
    | succ f =>
      have hc : ¬ (c = '<') := hmem c (by simp)
      have hstep : xmlScan (f + 1) [] (c :: rest) = xmlScan f [] rest := by
        simp only [xmlScan]
        rw [if_neg hc]
      rw [hstep]
      apply ih f
      · simp only [List.length_cons] at hlen
        omega
      · intro x hx
        exact hmem x (List.mem_cons_of_mem c hx)

/-- C10: the empty payload classifies with `is_json = false`,
`is_markdown = false` but `is_xml = true`; and in general every decodable
payload (within the size limit) containing no angle bracket at all — no
tag whatsoever — gets `is_xml = true`, since reaching end-of-input
without a malformed token is the scan's only success condition. -/
theorem C10_xml_true_without_tags :
    (validate_before_destroy_handler 0 [] =
      .report ⟨false, true, false,
        ["Valid XML detected.", "Anyways, it's gone now."], 0⟩) ∧
    ∀ (runtime : Nat) (body : List Nat) (text : List Char),
      body.length ≤ 65536 → utf8Decode body = some text →
      (∀ c ∈ text, c ≠ '<') →
      ∃ rep, validate_before_destroy_handler runtime body = .report rep ∧
        rep.is_xml = true := by
  refine ⟨by rfl, ?_⟩
  intro runtime body text hlen hdec hnotag
  have hle : ¬ body.length > MAX_SIZE := by
    simp [MAX_SIZE]
    omega
  unfold validate_before_destroy_handler
  simp only [hle, if_false, hdec]
  refine ⟨_, rfl, ?_⟩
  show xmlWellFormed text = true
  exact xmlScan_text_only text (text.length + 1) (by omega) hnotag

/-- Witness for C10's universally quantified part at the plain text
`hello` (ASCII bytes, no angle bracket). -/
theorem C10_xml_true_without_tags_witness :
    ([104, 101, 108, 108, 111] : List Nat).length ≤ 65536 ∧
    utf8Decode [104, 101, 108, 108, 111] = some ['h', 'e', 'l', 'l', 'o'] ∧
    ∃ rep, validate_before_destroy_handler 5 [104, 101, 108, 108, 111] =
        .report rep ∧ rep.is_xml = true :=
  ⟨by decide, by decide,
    C10_xml_true_without_tags.2 5 [104, 101, 108, 108, 111]
      ['h', 'e', 'l', 'l', 'o'] (by decide) (by decide) (by decide)⟩

/-! ## C7: record never fails the request — but also never logs

The code is `let _ = conn.lock().unwrap().execute(...)`: the insert's
`Result` is discarded.  The call indeed returns normally whatever the
insert outcome, but nothing is written to any logging channel, so the
claim's "reported through an out-of-band logging channel" part is false. -/

/-- C7 counterexample: on a failing insert the call returns normally but
emits nothing on the logging channel, so it does not both return
normally and report the failure via logging. -/
theorem C7_counterexample :
    ¬ ((record_stat [] "pulverize" 100 50 (Except.error ⟨1⟩)).2.1 =
        Except.ok () ∧
       (record_stat [] "pulverize" 100 50 (Except.error ⟨1⟩)).2.2 ≠ []) :=
  fun h => h.2 rfl

/-- C7 amended: every `record_stat` call returns normally to the caller —
a failed insert never propagates — but the failure is silently
discarded: nothing is emitted on any logging channel, and on failure the
log (table) is unchanged. -/
theorem C7_record_returns_normally_silently (log : List RawEvent)
    (endpoint : String) (payload_size runtime_us : Nat)
    (res : Except DbError Nat) :
    (record_stat log endpoint payload_size runtime_us res).2.1 =
      Except.ok () ∧
    (record_stat log endpoint payload_size runtime_us res).2.2 = [] ∧
    (∀ e, res = Except.error e →
      (record_stat log endpoint payload_size runtime_us res).1 = log) := by
  cases res <;> simp [record_stat]

/-- Witness for the amended C7 at a concrete failing insert. -/
theorem C7_record_returns_normally_silently_witness :
    (record_stat [] "burn" 7 9 (Except.error ⟨2⟩)).2.1 = Except.ok () ∧
    (record_stat [] "burn" 7 9 (Except.error ⟨2⟩)).2.2 = [] ∧
    (record_stat [] "burn" 7 9 (Except.error ⟨2⟩)).1 = [] := by
  have h := C7_record_returns_normally_silently [] "burn" 7 9 (Except.error ⟨2⟩)
  exact ⟨h.1, h.2.1, h.2.2 ⟨2⟩ rfl⟩

/-! ## C8: read failures are not surfaced as a service error

`stats_handler` unwraps `prepare`/`query_map` (a failure there panics —
an abrupt process-level fault, not an explicit service-error response)
and its row loop `if let Ok(entry) = row` silently drops failed rows, so
a row-level read failure is converted into a partial — possibly empty —
result set. -/

/-- C8 counterexample: a query whose single row read fails yields a
normal 200 response with an empty stats list — the read failure is
silently converted into an empty result set and no explicit service
error is produced. -/
theorem C8_counterexample :
    stats_handler (Except.ok [Except.error ⟨7⟩]) =
      .ok ⟨([] : List StatsEntry)⟩ ∧
    stats_handler (Except.ok [Except.error ⟨7⟩]) ≠ .serviceError :=
  ⟨rfl, by simp [stats_handler]⟩

/-- C8 amended: a failure of `prepare`/`query_map` aborts the handler
with a panic (not an explicit service-error response); on the success
path the handler keeps exactly the readable rows, silently dropping any
row whose read failed (so the result can be partial or empty); and no
input whatsoever makes the handler produce an explicit service error. -/
theorem C8_read_failures_panic_or_drop :
    (∀ e : DbError, stats_handler (Except.error e) = .crashed) ∧
    (∀ rows, stats_handler (Except.ok rows) =
      .ok ⟨rows.filterMap (fun r =>
        match r with
        | .ok entry => some entry
        | .error _ => none)⟩) ∧
    (∀ q, stats_handler q ≠ .serviceError) := by
  refine ⟨fun e => rfl, fun rows => rfl, fun q => ?_⟩
  cases q <;> simp [stats_handler]

/-! ## C1: the query aggregate -/


/-- C1: for every event-log state, the query yields exactly one aggregate
row per endpoint value appearing in the log and none for any other; in
each row, `count` is the number of that endpoint's events, the totals
are the sums of its payload sizes and runtimes, and the averages are
exactly total / count (rationals, hence within any floating-point
tolerance); and the handler returns the aggregate unchanged. -/
theorem C1_query_aggregates_exactly (log : List RawEvent) :
    ((queryStats log).map (fun row => row.endpoint)).Nodup ∧
    (∀ e, e ∈ (queryStats log).map (fun row => row.endpoint) ↔
      e ∈ log.map (fun ev => ev.endpoint)) ∧
    (∀ row ∈ queryStats log,
      row.count =
        ((log.filter (fun ev => ev.endpoint = row.endpoint)).length : Int) ∧
      row.total_bytes =
        ((log.filter (fun ev => ev.endpoint = row.endpoint)).map
          (fun ev => ev.payload_size)).sum ∧
      row.total_runtime_us =
        ((log.filter (fun ev => ev.endpoint = row.endpoint)).map
          (fun ev => ev.runtime_us)).sum ∧
      row.avg_payload_size = (row.total_bytes : Rat) / (row.count : Rat) ∧
      row.avg_runtime_us = (row.total_runtime_us : Rat) / (row.count : Rat)) ∧
    stats_handler (Except.ok ((queryStats log).map Except.ok)) =
      .ok ⟨queryStats log⟩ := by
  have hmap : (queryStats log).map (fun row => row.endpoint) =
      (log.map (fun ev => ev.endpoint)).dedup := by
    unfold queryStats
    rw [List.map_map]
    show List.map (fun e : String => e) ((log.map (fun ev => ev.endpoint)).dedup) = _
    simp
  refine ⟨?_, ?_, ?_, ?_⟩
  · rw [hmap]
    exact (log.map (fun ev => ev.endpoint)).nodup_dedup
  · intro e
    rw [hmap]
    exact List.mem_dedup
  · intro row hrow
    unfold queryStats at hrow
    obtain ⟨e, he, hrow⟩ := List.mem_map.mp hrow
    subst hrow
    exact ⟨rfl, rfl, rfl, rfl, rfl⟩
  · have hid : ∀ (l : List StatsEntry),
        (l.map (fun s => (Except.ok s : Except DbError StatsEntry))).filterMap
          (fun r : Except DbError StatsEntry =>
            match r with
            | Except.ok entry => some entry
            | Except.error _ => none) = l := by
      intro l
      induction l with
      | nil => rfl
      | cons a t ih => simp [List.filterMap_cons, ih]
    simp [stats_handler, hid]

/-- Witness for C1 at the spec's three-records-then-query scenario:
`alpha` appears, its row is the 3 / 300 / 150 / 100 / 50 aggregate, and
no row for the never-recorded endpoint `beta` exists. -/
theorem C1_query_aggregates_exactly_witness :
    ("alpha" ∈ (queryStats demoLog).map (fun row => row.endpoint) ↔
      "alpha" ∈ demoLog.map (fun ev => ev.endpoint)) ∧
    demoRow.count =
      ((demoLog.filter (fun ev => ev.endpoint = demoRow.endpoint)).length : Int) ∧
    demoRow.avg_payload_size = (demoRow.total_bytes : Rat) / (demoRow.count : Rat) := by
  have h := C1_query_aggregates_exactly demoLog
  have hq : queryStats demoLog = [demoRow] := by
    unfold queryStats
    have hd : (demoLog.map (fun ev => ev.endpoint)).dedup = ["alpha"] := by
      simp [demoLog, List.dedup_cons_of_mem, List.dedup_cons_of_not_mem]
    rw [hd]
    simp only [List.map_cons, List.map_nil]
    norm_num [demoLog, demoRow, List.filter]
  have hmem : demoRow ∈ queryStats demoLog := by
    rw [hq]
    exact List.mem_singleton.mpr rfl
  have hrow := h.2.2.1 demoRow hmem
  exact ⟨h.2.1 "alpha", hrow.1, hrow.2.2.2.1⟩

end Pulverizer
